import Mathlib

/-
Verification of the Codxen entity/component/scene runtime.

This file gives a shallow embedding, in Lean 4, of the parts of the
repository that carry real invariants: the 2D vector arithmetic
(src/core/Math.ts), the physics integrator and per-entity component
registry (src/core/Entity.ts and src/core/components.ts), the keyboard
part of the input state machine (src/input/InputManager.ts), the render
backend selection of the frame loop (src/index.ts), the entity tree
mutations (addChild / removeChild / destroy), and the scene name index
(addEntity / removeEntity / findEntity).

JavaScript numbers are modelled as exact rationals, JS Sets as finite
sets, JS Maps as association lists with the Map's replace-in-place /
delete semantics, and the JS object heap (for entity aliasing) as a
total function from entity ids to entity records.
-/

namespace Codxen

/-! ## Vector2 (src/core/Math.ts) -/

/-- Embedding of the Vector2 class: a pair of (exact) numbers. -/
structure Vector2 where
  x : ℚ
  y : ℚ
  deriving DecidableEq, Repr

/-- Vector2.add: componentwise sum, returning a fresh vector. -/
def Vector2.add (v w : Vector2) : Vector2 :=
  ⟨v.x + w.x, v.y + w.y⟩

/-- Vector2.multiply: scalar multiplication, returning a fresh vector. -/
def Vector2.multiply (v : Vector2) (scalar : ℚ) : Vector2 :=
  ⟨v.x * scalar, v.y * scalar⟩

/-! ## Transform2D and Rigidbody2D (src/core/components.ts) -/

/-- Embedding of the Transform2D component's data fields. -/
structure Transform2D where
  position : Vector2
  scale : Vector2
  rotation : ℚ
  deriving DecidableEq, Repr

/-- Transform2D.translate: position := position.add(offset). -/
def Transform2D.translate (t : Transform2D) (offset : Vector2) : Transform2D :=
  { t with position := t.position.add offset }

/-- Embedding of the Rigidbody2D component's data fields. -/
structure Rigidbody2D where
  velocity : Vector2
  acceleration : Vector2
  mass : ℚ
  friction : ℚ
  isStatic : Bool
  gravity : ℚ
  deriving DecidableEq, Repr

/-- Rigidbody2D.update(deltaTime).  The owning entity's Transform2D (if
any) is passed explicitly, standing for `this.entity?.getComponent(Transform2D)`;
the function returns the updated body together with the updated transform.
Mirrors the source line by line: static bodies return immediately; a
missing transform returns immediately; then gravity is added to
`acceleration.y`, velocity is integrated, friction decays the updated
velocity, the transform is translated by `velocity * deltaTime`, and
acceleration is reset to zero. -/
def Rigidbody2D.update (rb : Rigidbody2D) (transform : Option Transform2D)
    (deltaTime : ℚ) : Rigidbody2D × Option Transform2D :=
  if rb.isStatic then (rb, transform)
  else
    match transform with
    | none => (rb, none)
    | some t =>
      let acc : Vector2 := ⟨rb.acceleration.x, rb.acceleration.y + rb.gravity⟩
      let vel : Vector2 := (rb.velocity.add (acc.multiply deltaTime)).multiply
        (1 - rb.friction)
      ({ rb with velocity := vel, acceleration := ⟨0, 0⟩ },
       some (t.translate (vel.multiply deltaTime)))

/-- Rigidbody2D.applyForce(force): acceleration := acceleration.add(force * (1/mass)). -/
def Rigidbody2D.applyForce (rb : Rigidbody2D) (force : Vector2) : Rigidbody2D :=
  { rb with acceleration := rb.acceleration.add (force.multiply (1 / rb.mass)) }

/-! ## Association lists with JS Map semantics -/

/-- JS Map.set(k, v): replace the value in place if the key is present,
otherwise append the new entry at the end (insertion order). -/
def mapSet {κ : Type} [DecidableEq κ] : List (κ × Nat) → κ → Nat → List (κ × Nat)
  | [], k, v => [(k, v)]
  | (k', v') :: rest, k, v =>
      if k' = k then (k, v) :: rest else (k', v') :: mapSet rest k v

/-- JS Map.get(k): the value stored under the first matching key, if any. -/
def mapGet {κ : Type} [DecidableEq κ] : List (κ × Nat) → κ → Option Nat
  | [], _ => none
  | (k', v') :: rest, k => if k' = k then some v' else mapGet rest k

/-- JS Map.delete(k): drop the first entry carrying the key. -/
def mapDel {κ : Type} [DecidableEq κ] : List (κ × Nat) → κ → List (κ × Nat)
  | [], _ => []
  | (k', v') :: rest, k => if k' = k then rest else (k', v') :: mapDel rest k

/-- Keys of an association list, in storage order. -/
def mapKeys {κ : Type} (l : List (κ × Nat)) : List κ := l.map Prod.fst

/-! ## Per-entity component registry (src/core/Entity.ts, Entity.addComponent /
Entity.getComponent)

Capability types (the `Component` constructor functions used as Map keys)
are modelled as abstract type keys; component instances are modelled by
allocation ids, a fresh id standing for the object returned by
`new Component()`. -/

/-- The component slots of one entity (`private components: Map<Function,
Component>`), together with the allocation counter that models `new`
returning an object distinct from every live one. -/
structure ComponentRegistry where
  slots : List (Nat × Nat)
  nextId : Nat
  deriving DecidableEq, Repr

/-- Entity.addComponent(T): construct a fresh instance, store it under the
type key (silently replacing any previous instance of that type), and
return it. -/
def ComponentRegistry.addComponent (r : ComponentRegistry) (t : Nat) :
    Nat × ComponentRegistry :=
  (r.nextId, ⟨mapSet r.slots t r.nextId, r.nextId + 1⟩)

/-- Entity.getComponent(T): exact-type lookup, absent result when no
instance of the type is stored. -/
def ComponentRegistry.getComponent (r : ComponentRegistry) (t : Nat) : Option Nat :=
  mapGet r.slots t

/-! ## Input state machine (src/input/InputManager.ts, keyboard part)

The three JS Sets holding keyboard state are modelled as finite sets of
key identifiers; the mouse/touch state of the class is independent of
every keyboard query and is omitted.  Raw keydown/keyup events and the
per-frame update() call are modelled as one step function on this
state. -/

/-- Keyboard part of the InputManager state: the keysPressed,
keysJustPressed and keysJustReleased sets. -/
structure InputManager where
  keysPressed : Finset String
  keysJustPressed : Finset String
  keysJustReleased : Finset String

/-- Actions that mutate the keyboard state: the two raw events delivered
by the window listeners, and the per-frame update() call. -/
inductive InputEvent where
  | keydown (key : String)
  | keyup (key : String)
  | update
  deriving DecidableEq, Repr

/-- One step of the input state machine.  keydown: if the key is not
already held, add it to the just-pressed set; always add it to the held
set.  keyup: remove from the held set, add to just-released.  update():
clear both edge sets. -/
def InputManager.step (s : InputManager) (e : InputEvent) : InputManager :=
  match e with
  | .keydown k =>
      { s with
        keysJustPressed :=
          if k ∈ s.keysPressed then s.keysJustPressed
          else insert k s.keysJustPressed,
        keysPressed := insert k s.keysPressed }
  | .keyup k =>
      { s with
        keysPressed := s.keysPressed.erase k,
        keysJustReleased := insert k s.keysJustReleased }
  | .update => { s with keysJustPressed := ∅, keysJustReleased := ∅ }

/-- Process a list of events/update calls in order. -/
def InputManager.run (s : InputManager) (es : List InputEvent) : InputManager :=
  es.foldl InputManager.step s

/-- InputManager.isKeyPressed(key): membership in the held set. -/
def InputManager.isKeyPressed (s : InputManager) (k : String) : Prop :=
  k ∈ s.keysPressed

/-- InputManager.isKeyJustPressed(key): membership in the just-pressed set. -/
def InputManager.isKeyJustPressed (s : InputManager) (k : String) : Prop :=
  k ∈ s.keysJustPressed

/-- InputManager.isKeyJustReleased(key): membership in the just-released set. -/
def InputManager.isKeyJustReleased (s : InputManager) (k : String) : Prop :=
  k ∈ s.keysJustReleased

instance (s : InputManager) (k : String) : Decidable (s.isKeyPressed k) :=
  inferInstanceAs (Decidable (k ∈ s.keysPressed))

instance (s : InputManager) (k : String) : Decidable (s.isKeyJustPressed k) :=
  inferInstanceAs (Decidable (k ∈ s.keysJustPressed))

instance (s : InputManager) (k : String) : Decidable (s.isKeyJustReleased k) :=
  inferInstanceAs (Decidable (k ∈ s.keysJustReleased))

/-! ## Render mode and backend selection (src/index.ts)

GameEngine holds two independent renderer fields, `canvas2DRenderer` and
`webglRenderer`, both initially null; `initializeRenderer` fills in the
one matching `renderMode` and never clears the other.  The render step of
`gameLoop` draws through `canvas2DRenderer` whenever it is non-null and
only otherwise through `webglRenderer`.  The renderer objects themselves
are drawing-surface collaborators with no bearing on which branch runs,
so each field is modelled by an Option marking it null or constructed. -/

/-- The two render modes of src/index.ts. -/
inductive RenderMode where
  | r2d
  | r3d
  deriving DecidableEq, Repr

/-- The renderer-selection state of the GameEngine class: the current
render mode and the two nullable backend fields. -/
structure GameEngine where
  renderMode : RenderMode
  canvas2DRenderer : Option Unit
  webglRenderer : Option Unit
  deriving DecidableEq, Repr

/-- GameEngine.initializeRenderer: construct the backend matching the
current renderMode and store it in its field; the other field is left
untouched. -/
def GameEngine.initializeRenderer (e : GameEngine) : GameEngine :=
  if e.renderMode = .r2d then { e with canvas2DRenderer := some () }
  else { e with webglRenderer := some () }

/-- The GameEngine constructor: both renderer fields start null, then
initializeRenderer runs for the requested mode. -/
def mkGameEngine (mode : RenderMode) : GameEngine :=
  GameEngine.initializeRenderer ⟨mode, none, none⟩

/-- GameEngine.switchRenderMode: no-op when the requested mode equals the
current one; otherwise the current canvas element is removed from the DOM
(which does not touch either renderer field), renderMode is reassigned,
and initializeRenderer constructs the backend for the new mode.  Neither
renderer field is ever reset to null. -/
def GameEngine.switchRenderMode (e : GameEngine) (mode : RenderMode) : GameEngine :=
  if mode = e.renderMode then e
  else GameEngine.initializeRenderer { e with renderMode := mode }

/-- The render dispatch of GameEngine.gameLoop: if canvas2DRenderer is
non-null, the frame renders through the 2D backend; otherwise, if
webglRenderer is non-null, through the 3D backend; otherwise nothing
renders.  The scene/input updates earlier in the loop do not modify the
renderer fields, so this function of the engine state gives the backend
used by every subsequent frame. -/
def GameEngine.renderBackendUsed (e : GameEngine) : Option RenderMode :=
  if e.canvas2DRenderer.isSome then some .r2d
  else if e.webglRenderer.isSome then some .r3d
  else none

/-! ## Entity heap (src/core/Entity.ts: addChild / removeChild / destroy)

Entity objects alias each other through parent references and child
lists, so they are modelled as a heap: a total function from entity ids
(object identities) to entity records.  Component instances are
allocation ids as in the registry model. -/

/-- The mutable fields of one Entity object. -/
structure EntityData where
  name : String
  active : Bool
  components : List (Nat × Nat)
  children : List Nat
  parent : Option Nat
  deriving DecidableEq, Repr

/-- The JS object heap: entity records addressed by object identity. -/
abbrev World : Type := Nat → EntityData

/-- Replace one entity record in the heap by a rewritten copy. -/
def updEntity (w : World) (i : Nat) (f : EntityData → EntityData) : World :=
  fun j => if j = i then f (w i) else w j

/-- Entity.addChild(entity): entity.parent = this, then
this.children.push(entity).  No check that the child is parentless or
absent from the list. -/
def Entity.addChild (w : World) (self entity : Nat) : World :=
  let w1 := updEntity w entity (fun d => { d with parent := some self })
  updEntity w1 self (fun d => { d with children := d.children ++ [entity] })

/-- Entity.removeChild(entity): if the child occurs in this.children,
splice out its first occurrence and null the child's parent; otherwise do
nothing. -/
def Entity.removeChild (w : World) (self entity : Nat) : World :=
  if entity ∈ (w self).children then
    let w1 := updEntity w self (fun d => { d with children := d.children.erase entity })
    updEntity w1 entity (fun d => { d with parent := none })
  else w

/-- Entity.destroy(): detach from the parent if any (via removeChild),
clear the component map, and reset the child list to empty; the children
themselves are not visited. -/
def Entity.destroy (w : World) (self : Nat) : World :=
  let w1 :=
    match (w self).parent with
    | some p => Entity.removeChild w p self
    | none => w
  let w2 := updEntity w1 self (fun d => { d with components := [] })
  updEntity w2 self (fun d => { d with children := [] })

/-- The tree mutations quantified over by the consistency claim. -/
inductive TreeOp where
  | addChild (parent child : Nat)
  | removeChild (parent child : Nat)
  | destroy (entity : Nat)
  deriving DecidableEq, Repr

/-- Apply one tree mutation to the heap. -/
def applyTreeOp (w : World) : TreeOp → World
  | .addChild p c => Entity.addChild w p c
  | .removeChild p c => Entity.removeChild w p c
  | .destroy e => Entity.destroy w e

/-- Apply a sequence of tree mutations in order. -/
def runTreeOps (w : World) (ops : List TreeOp) : World :=
  ops.foldl applyTreeOp w

/-- Mutual consistency of child lists and parent references: every entity
in a child list points back at the list's owner, and every entity with a
non-null parent occurs exactly once in that parent's child list. -/
def Consistent (w : World) : Prop :=
  (∀ p c, c ∈ (w p).children → (w c).parent = some p) ∧
  (∀ c p, (w c).parent = some p → (w p).children.count c = 1)

/-- Preconditions under which the amended consistency claim holds:
addChild only on a currently parentless child (the code silently
re-parents otherwise, leaving the old parent's list stale), and destroy
only on an entity with no children (the code abandons children with a
dangling parent reference otherwise).  removeChild needs no
precondition. -/
def TreeOpPre (w : World) : TreeOp → Prop
  | .addChild _ c => (w c).parent = none
  | .removeChild _ _ => True
  | .destroy e => (w e).children = []

/-- A sequence of tree mutations each of which meets its precondition in
the state it runs in. -/
def GoodTreeOps : World → List TreeOp → Prop
  | _, [] => True
  | w, op :: ops => TreeOpPre w op ∧ GoodTreeOps (applyTreeOp w op) ops

/-- A heap of freshly constructed entities: every id holds the
constructor defaults (name 'Entity', active, no components, no children,
no parent). -/
def freshWorld : World := fun _ => ⟨"Entity", true, [], [], none⟩

/-! ## Scene index frame property (Entity.addChild vs Scene.findEntity) -/

/-- The Scene fields relevant to the flat name index, over the entity
heap: the root list and the allEntities Map keyed by name. -/
structure SceneRef where
  world : World
  rootEntities : List Nat
  allEntities : List (String × Nat)

/-- Scene.findEntity(name): index lookup, null when absent. -/
def SceneRef.findEntity (s : SceneRef) (n : String) : Option Nat :=
  mapGet s.allEntities n

/-! ## Subtree update pass (Entity.update)

For the inactive-entity claim only the set of component updates invoked
matters, so Entity.update is modelled as the trace of invoked component
instances: an entity whose active flag is cleared returns before touching
its components or recursing into children; an active entity invokes every
enabled component in attachment order, then recurses into children in
list order. -/

/-- One attached component as seen by the update pass: its enabled flag
and its instance id. -/
structure UComp where
  isEnabled : Bool
  cid : Nat
  deriving DecidableEq, Repr

/-- An entity subtree as traversed by Entity.update: the entity's active
flag, its components in attachment order, and its children in list
order. -/
inductive UTree where
  | node (active : Bool) (comps : List UComp) (children : List UTree)

mutual

/-- Entity.update(deltaTime), as the trace of component instances whose
update is invoked: return immediately when inactive, else run the enabled
components, then the children. -/
def updateEntity : UTree → List Nat
  | .node active comps children =>
    if active then
      (comps.filter (fun c => c.isEnabled)).map (fun c => c.cid) ++
        updateChildren children
    else []

/-- The child loop of Entity.update. -/
def updateChildren : List UTree → List Nat
  | [] => []
  | t :: rest => updateEntity t ++ updateChildren rest

end

/-! ## Scene name index (src/core/Entity.ts: Scene)

addEntity, removeEntity and findEntity never mutate the tree structure of
the entities they handle, so for the name-index claim an entity is a
value: its object identity, its current name, and its children.  The
allEntities Map is an association list with the JS Map replace/delete
semantics above. -/

/-- An entity as seen by the scene: object identity, current name,
children. -/
inductive SE where
  | node (eid : Nat) (ename : String) (children : List SE)

/-- Object identity of a scene entity. -/
def SE.eid : SE → Nat
  | .node i _ _ => i

/-- Current name of a scene entity. -/
def SE.ename : SE → String
  | .node _ n _ => n

/-- The assignment `entity.name = entityName` performed by
Scene.addEntity: rename the root, keep the subtree. -/
def SE.withName : SE → String → SE
  | .node i _ cs, n => .node i n cs

mutual

/-- Scene.registerEntity: allEntities.set(entity.name, entity), then
recursively register each child. -/
def registerEntity : SE → List (String × Nat) → List (String × Nat)
  | .node i n cs, idx => registerChildren cs (mapSet idx n i)

/-- The child loop of Scene.registerEntity. -/
def registerChildren : List SE → List (String × Nat) → List (String × Nat)
  | [], idx => idx
  | c :: rest, idx => registerChildren rest (registerEntity c idx)

end

mutual

/-- Scene.unregisterEntity: allEntities.delete(entity.name), then
recursively unregister each child. -/
def unregisterEntity : SE → List (String × Nat) → List (String × Nat)
  | .node _ n cs, idx => unregisterChildren cs (mapDel idx n)

/-- The child loop of Scene.unregisterEntity. -/
def unregisterChildren : List SE → List (String × Nat) → List (String × Nat)
  | [], idx => idx
  | c :: rest, idx => unregisterChildren rest (unregisterEntity c idx)

end

mutual

/-- Specification-side notion: the (name, id) pairs of an entity and all
its descendants, in preorder — the entities a registration adds to the
scene, and (over the root list) the entities currently registered. -/
def collectEntity : SE → List (String × Nat)
  | .node i n cs => (n, i) :: collectChildren cs

/-- collectEntity over a forest, in order. -/
def collectChildren : List SE → List (String × Nat)
  | [] => []
  | c :: rest => collectEntity c ++ collectChildren rest

end

/-- The Scene class state: the root list and the flat name index. -/
structure Scene where
  rootEntities : List SE
  allEntities : List (String × Nat)

/-- The JS default `name || entity.name` of Scene.addEntity: an omitted
or empty requested name keeps the entity's current name (the empty string
is falsy). -/
def chooseName : Option String → String → String
  | some nm, cur => if nm = "" then cur else nm
  | none, cur => cur

/-- Scene.addEntity(entity, name?): rename the entity, push it on the
root list, and register it and its descendants in the index. -/
def Scene.addEntity (s : Scene) (e : SE) (nm : Option String) : Scene :=
  let e2 := e.withName (chooseName nm e.ename)
  { rootEntities := s.rootEntities ++ [e2],
    allEntities := registerEntity e2 s.allEntities }

/-- rootEntities.indexOf(entity) followed by splice: locate the first
root with the given object identity and detach it, yielding the root and
the remaining list. -/
def extractRoot : List SE → Nat → Option (SE × List SE)
  | [], _ => none
  | r :: rest, i =>
      if r.eid = i then some (r, rest)
      else
        match extractRoot rest i with
        | none => none
        | some (r2, rest2) => some (r2, r :: rest2)

/-- Scene.removeEntity(entity): if the entity is a root, remove it from
the root list and unregister it and its descendants from the index;
otherwise do nothing. -/
def Scene.removeEntity (s : Scene) (i : Nat) : Scene :=
  match extractRoot s.rootEntities i with
  | none => s
  | some (r, rest) =>
      { rootEntities := rest, allEntities := unregisterEntity r s.allEntities }

/-- Scene.findEntity(name): index lookup, null when absent. -/
def Scene.findEntity (s : Scene) (n : String) : Option Nat :=
  mapGet s.allEntities n

/-- The scene operations quantified over by the lookup claim. -/
inductive SceneOp where
  | add (e : SE) (nm : Option String)
  | remove (i : Nat)

/-- Apply one scene operation. -/
def applySceneOp (s : Scene) : SceneOp → Scene
  | .add e nm => s.addEntity e nm
  | .remove i => s.removeEntity i

/-- Apply a sequence of scene operations in order. -/
def runSceneOps (s : Scene) (ops : List SceneOp) : Scene :=
  ops.foldl applySceneOp s

/-- Invariant tying the flat index to the registered forest: index keys
are distinct, the names of currently registered entities are distinct,
and every findEntity lookup agrees with a lookup over the currently
registered (name, id) pairs. -/
def SceneInv (s : Scene) : Prop :=
  (mapKeys s.allEntities).Nodup ∧
  (mapKeys (collectChildren s.rootEntities)).Nodup ∧
  ∀ n, s.findEntity n = mapGet (collectChildren s.rootEntities) n

/-- Preconditions under which the amended lookup claim holds: every
registered tree carries internally distinct names, all of them fresh for
the scene (no currently registered entity holds any of them).  removal
needs no precondition. -/
def GoodSceneOps : Scene → List SceneOp → Prop
  | _, [] => True
  | s, .add e nm :: ops =>
      ((mapKeys (collectEntity (e.withName (chooseName nm e.ename)))).Nodup ∧
        ∀ n ∈ mapKeys (collectEntity (e.withName (chooseName nm e.ename))),
          n ∉ mapKeys (collectChildren s.rootEntities)) ∧
      GoodSceneOps (s.addEntity e nm) ops
  | s, .remove i :: ops => GoodSceneOps (s.removeEntity i) ops

end Codxen

namespace Codxen

/-! ## Basic lemmas about the JS Map embedding -/

theorem mapGet_mapSet {κ : Type} [DecidableEq κ] (l : List (κ × Nat)) (k : κ)
    (v : Nat) (n : κ) :
    mapGet (mapSet l k v) n = if k = n then some v else mapGet l n := by
  induction l with
  | nil => simp [mapSet, mapGet]
  | cons hd tl ih =>
    obtain ⟨k', v'⟩ := hd
    by_cases hk : k' = k
    · subst hk
      by_cases hn : k' = n <;> simp [mapSet, mapGet, hn]
    · by_cases hn : k' = n
      · subst hn
        have h2 : ¬ k = k' := fun h => hk h.symm
        simp [mapSet, mapGet, hk, h2]
      · simp [mapSet, mapGet, hk, hn, ih]

/-! ## Claim C4: one gravity/friction integration step -/

/-- C4: a non-static body with gravity 9.8, friction 0, zero initial
velocity and acceleration, updated with dt = 1, ends with velocity
(0, 9.8) and translates the owning Transform2D's position by (0, 9.8);
with friction 0.1 instead, the post-step velocity is (0, 8.82).  Stated
for every mass and every initial transform. -/
theorem rigidbody_gravity_friction_step_C4 (m : ℚ) (p sc : Vector2) (rot : ℚ) :
    Rigidbody2D.update ⟨⟨0, 0⟩, ⟨0, 0⟩, m, 0, false, 9.8⟩ (some ⟨p, sc, rot⟩) 1 =
      (⟨⟨0, 9.8⟩, ⟨0, 0⟩, m, 0, false, 9.8⟩,
        some ⟨p.add ⟨0, 9.8⟩, sc, rot⟩) ∧
    (Rigidbody2D.update ⟨⟨0, 0⟩, ⟨0, 0⟩, m, 0.1, false, 9.8⟩
        (some ⟨p, sc, rot⟩) 1).1.velocity = ⟨0, 8.82⟩ := by
  constructor
  · simp only [Rigidbody2D.update, Transform2D.translate, Vector2.add,
      Vector2.multiply, Bool.false_eq_true, if_false]
    norm_num
  · simp only [Rigidbody2D.update, Transform2D.translate, Vector2.add,
      Vector2.multiply, Bool.false_eq_true, if_false]
    norm_num

/-! ## Claim C9: applyForce divides by mass -/

/-- C9: applyForce((10,0)) on a body of mass 2 adds exactly (5,0) to the
accumulated acceleration and changes nothing else, so it takes effect on
the next integration step (which reads `acceleration`).  Stated for every
velocity, prior acceleration, friction, static flag and gravity. -/
theorem applyForce_mass_division_C9 (v a : Vector2) (fr : ℚ) (st : Bool) (g : ℚ) :
    Rigidbody2D.applyForce ⟨v, a, 2, fr, st, g⟩ ⟨10, 0⟩ =
      ⟨v, a.add ⟨5, 0⟩, 2, fr, st, g⟩ := by
  simp only [Rigidbody2D.applyForce, Vector2.multiply, Vector2.add]
  norm_num

/-! ## Claim C10: forces applied to static bodies accumulate -/

/-- C10: applyForce has no static-body guard, so on a static body it still
adds force/mass to the accumulated acceleration; update is a complete
no-op for static bodies (in particular it never resets their
acceleration); and once the body is made non-static, the first
integration step consumes the accumulated acceleration (plus gravity) in
the velocity update.  Stated over every static body (fields quantified,
isStatic fixed to true) and every force. -/
theorem static_applyForce_accumulates_C10 (v a : Vector2) (m fr g : ℚ)
    (f : Vector2) (tf : Option Transform2D) (t : Transform2D) (dt : ℚ) :
    (Rigidbody2D.applyForce ⟨v, a, m, fr, true, g⟩ f).acceleration =
      a.add (f.multiply (1 / m)) ∧
    Rigidbody2D.update (Rigidbody2D.applyForce ⟨v, a, m, fr, true, g⟩ f) tf dt =
      (Rigidbody2D.applyForce ⟨v, a, m, fr, true, g⟩ f, tf) ∧
    (Rigidbody2D.update
        { Rigidbody2D.applyForce ⟨v, a, m, fr, true, g⟩ f with isStatic := false }
        (some t) dt).1.velocity =
      Vector2.mk ((v.x + (a.x + f.x * (1 / m)) * dt) * (1 - fr))
        ((v.y + (a.y + f.y * (1 / m) + g) * dt) * (1 - fr)) := by
  refine ⟨rfl, ?_, ?_⟩
  · simp [Rigidbody2D.update, Rigidbody2D.applyForce]
  · simp only [Rigidbody2D.update, Rigidbody2D.applyForce, Vector2.add,
      Vector2.multiply, Bool.false_eq_true, if_false]

/-! ## Claim C6: addComponent replaces, getComponent retrieves the latest -/

/-- C6: getComponent(T) right after addComponent(T) returns exactly the
instance addComponent returned; after a second addComponent(T) on the same
entity, getComponent(T) returns the second instance, which is distinct
from the first, so the first is no longer retrievable via getComponent(T).
Stated for every registry state and every capability type. -/
theorem component_replace_C6 (r : ComponentRegistry) (t : Nat) :
    ComponentRegistry.getComponent (r.addComponent t).2 t =
      some (r.addComponent t).1 ∧
    ComponentRegistry.getComponent ((r.addComponent t).2.addComponent t).2 t =
      some ((r.addComponent t).2.addComponent t).1 ∧
    ((r.addComponent t).2.addComponent t).1 ≠ (r.addComponent t).1 := by
  refine ⟨?_, ?_, ?_⟩
  · simp [ComponentRegistry.getComponent, ComponentRegistry.addComponent,
      mapGet_mapSet]
  · simp [ComponentRegistry.getComponent, ComponentRegistry.addComponent,
      mapGet_mapSet]
  · simp [ComponentRegistry.addComponent]

/-! ## Claim C3: backend used after a 2D-to-3D mode switch

The claim (and spec section 4.3) say every frame renders through the
backend of the current render mode, in particular through the 3D backend
after switchRenderMode from 2D to 3D.  The code violates this:
switchRenderMode never nulls the previous backend field, and the frame
loop's dispatch checks canvas2DRenderer first, so after a 2D-to-3D switch
every subsequent frame still renders through the stale 2D backend (whose
canvas has been removed from the document) while renderMode reports 3D. -/

/-- C3 failing run: an engine started in 2D mode renders through the 2D
backend; after switchRenderMode('3d') the mode is 3D, yet the render
dispatch still selects the 2D backend. -/
theorem switch_to_3d_still_renders_2d_C3 :
    (mkGameEngine .r2d).renderBackendUsed = some .r2d ∧
    ((mkGameEngine .r2d).switchRenderMode .r3d).renderMode = .r3d ∧
    ((mkGameEngine .r2d).switchRenderMode .r3d).renderBackendUsed = some .r2d := by
  decide

/-! ## Lemmas for the entity heap -/

theorem Entity.addChild_children (w : World) (p c x : Nat) :
    ((Entity.addChild w p c) x).children =
      if x = p then (w p).children ++ [c] else (w x).children := by
  by_cases hxp : x = p
  · subst hxp
    by_cases hxc : x = c
    · subst hxc
      simp [Entity.addChild, updEntity]
    · have hcx : ¬ c = x := fun h => hxc h.symm
      simp [Entity.addChild, updEntity, hxc, hcx]
  · by_cases hxc : x = c
    · subst hxc
      have hpx : ¬ p = x := fun h => hxp h.symm
      simp [Entity.addChild, updEntity, hxp, hpx]
    · simp [Entity.addChild, updEntity, hxp, hxc]

theorem Entity.addChild_parent (w : World) (p c x : Nat) :
    ((Entity.addChild w p c) x).parent =
      if x = c then some p else (w x).parent := by
  by_cases hxp : x = p
  · subst hxp
    by_cases hxc : x = c
    · subst hxc
      simp [Entity.addChild, updEntity]
    · have hcx : ¬ c = x := fun h => hxc h.symm
      simp [Entity.addChild, updEntity, hxc, hcx]
  · by_cases hxc : x = c
    · subst hxc
      have hpx : ¬ p = x := fun h => hxp h.symm
      simp [Entity.addChild, updEntity, hxp, hpx]
    · simp [Entity.addChild, updEntity, hxp, hxc]

theorem Entity.removeChild_children (w : World) (p c x : Nat)
    (h : c ∈ (w p).children) :
    ((Entity.removeChild w p c) x).children =
      if x = p then (w p).children.erase c else (w x).children := by
  by_cases hxp : x = p
  · subst hxp
    by_cases hxc : x = c
    · subst hxc
      simp [Entity.removeChild, h, updEntity]
    · have hcx : ¬ c = x := fun hh => hxc hh.symm
      simp [Entity.removeChild, h, updEntity, hxc, hcx]
  · by_cases hxc : x = c
    · subst hxc
      have hpx : ¬ p = x := fun hh => hxp hh.symm
      simp [Entity.removeChild, h, updEntity, hxp, hpx]
    · simp [Entity.removeChild, h, updEntity, hxp, hxc]

theorem Entity.removeChild_parent (w : World) (p c x : Nat)
    (h : c ∈ (w p).children) :
    ((Entity.removeChild w p c) x).parent =
      if x = c then none else (w x).parent := by
  by_cases hxp : x = p
  · subst hxp
    by_cases hxc : x = c
    · subst hxc
      simp [Entity.removeChild, h, updEntity]
    · have hcx : ¬ c = x := fun hh => hxc hh.symm
      simp [Entity.removeChild, h, updEntity, hxc, hcx]
  · by_cases hxc : x = c
    · subst hxc
      have hpx : ¬ p = x := fun hh => hxp hh.symm
      simp [Entity.removeChild, h, updEntity, hxp, hpx]
    · simp [Entity.removeChild, h, updEntity, hxp, hxc]

theorem Entity.removeChild_not_mem (w : World) (p c : Nat)
    (h : c ∉ (w p).children) : Entity.removeChild w p c = w := by
  simp [Entity.removeChild, h]

theorem consistent_congr {u v : World}
    (h : ∀ x, (v x).children = (u x).children ∧ (v x).parent = (u x).parent)
    (hu : Consistent u) : Consistent v := by
  obtain ⟨h1, h2⟩ := hu
  constructor
  · intro p c hmem
    rw [(h c).2, (h p).1] at *
    exact h1 p c hmem
  · intro c p hpar
    rw [(h c).2] at hpar
    rw [(h p).1]
    exact h2 c p hpar

theorem addChild_consistent {w : World} {p c : Nat} (hw : Consistent w)
    (hc : (w c).parent = none) : Consistent (Entity.addChild w p c) := by
  obtain ⟨h1, h2⟩ := hw
  have hcnot : c ∉ (w p).children := by
    intro hmem
    rw [h1 p c hmem] at hc
    exact Option.noConfusion hc
  constructor
  · intro p' c' hmem
    rw [Entity.addChild_children] at hmem
    rw [Entity.addChild_parent]
    by_cases hcc : c' = c
    · rw [if_pos hcc]
      subst hcc
      split_ifs at hmem with hp'
      · rw [hp']
      · rw [h1 p' c' hmem] at hc
        exact Option.noConfusion hc
    · rw [if_neg hcc]
      split_ifs at hmem with hp'
      · subst hp'
        rcases List.mem_append.1 hmem with hmem | hmem
        · exact h1 p' c' hmem
        · exact absurd (List.mem_singleton.1 hmem) hcc
      · exact h1 p' c' hmem
  · intro c' p' hpar
    rw [Entity.addChild_parent] at hpar
    rw [Entity.addChild_children]
    by_cases hcc : c' = c
    · rw [if_pos hcc] at hpar
      have hp' : p' = p := (Option.some.inj hpar).symm
      subst hp'
      subst hcc
      rw [if_pos rfl, List.count_append]
      rw [List.count_eq_zero_of_not_mem hcnot]
      simp
    · rw [if_neg hcc] at hpar
      have := h2 c' p' hpar
      split_ifs with hp'
      · subst hp'
        rw [List.count_append, this]
        simp [List.count_singleton', hcc]
      · exact this

theorem removeChild_consistent {w : World} (p c : Nat) (hw : Consistent w) :
    Consistent (Entity.removeChild w p c) := by
  by_cases hmem : c ∈ (w p).children
  · obtain ⟨h1, h2⟩ := hw
    have hcp : (w c).parent = some p := h1 p c hmem
    have hcount : (w p).children.count c = 1 := h2 c p hcp
    constructor
    · intro p' c' h'
      rw [Entity.removeChild_children w p c p' hmem] at h'
      rw [Entity.removeChild_parent w p c c' hmem]
      have hcc : c' ≠ c := by
        intro hcc
        subst hcc
        split_ifs at h' with hp'
        · subst hp'
          have h0 : ((w p').children.erase c').count c' = 0 := by
            rw [List.count_erase_self, hcount]
          have h3 : 0 < ((w p').children.erase c').count c' :=
            List.count_pos_iff.2 h'
          omega
        · have h4 : (w c').parent = some p' := h1 p' c' h'
          exact hp' (Option.some.inj (h4.symm.trans hcp))
      rw [if_neg hcc]
      split_ifs at h' with hp'
      · subst hp'
        exact h1 p' c' (List.mem_of_mem_erase h')
      · exact h1 p' c' h'
    · intro c' p' hpar
      rw [Entity.removeChild_parent w p c c' hmem] at hpar
      rw [Entity.removeChild_children w p c p' hmem]
      by_cases hcc : c' = c
      · rw [if_pos hcc] at hpar
        exact Option.noConfusion hpar
      · rw [if_neg hcc] at hpar
        have := h2 c' p' hpar
        split_ifs with hp'
        · subst hp'
          rw [List.count_erase_of_ne hcc, this]
        · exact this
  · rw [Entity.removeChild_not_mem w p c hmem]
    exact hw

theorem destroy_fields (w1 : World) (e : Nat) (h1e : (w1 e).children = [])
    (x : Nat) :
    ((updEntity (updEntity w1 e fun d => { d with components := [] }) e
        fun d => { d with children := [] }) x).children = (w1 x).children ∧
    ((updEntity (updEntity w1 e fun d => { d with components := [] }) e
        fun d => { d with children := [] }) x).parent = (w1 x).parent := by
  constructor
  · simp only [updEntity]
    by_cases hx : x = e
    · subst hx
      simp [h1e]
    · simp [hx]
  · simp only [updEntity]
    by_cases hx : x = e
    · subst hx
      simp
    · simp [hx]

theorem destroy_consistent {w : World} {e : Nat} (hw : Consistent w)
    (he : (w e).children = []) : Consistent (Entity.destroy w e) := by
  cases hpar : (w e).parent with
  | none =>
    have hd : Entity.destroy w e =
        updEntity (updEntity w e fun d => { d with components := [] }) e
          (fun d => { d with children := [] }) := by
      simp only [Entity.destroy]
      rw [hpar]
    rw [hd]
    exact consistent_congr (destroy_fields w e he) hw
  | some p =>
    have hd : Entity.destroy w e =
        updEntity (updEntity (Entity.removeChild w p e) e
          fun d => { d with components := [] }) e
          (fun d => { d with children := [] }) := by
      simp only [Entity.destroy]
      rw [hpar]
    have hrc : Consistent (Entity.removeChild w p e) :=
      removeChild_consistent p e hw
    have hrce : ((Entity.removeChild w p e) e).children = [] := by
      by_cases hmem : e ∈ (w p).children
      · rw [Entity.removeChild_children w p e e hmem]
        split_ifs with hep
        · subst hep
          rw [he]
          rfl
        · exact he
      · rw [Entity.removeChild_not_mem w p e hmem]
        exact he
    rw [hd]
    exact consistent_congr (destroy_fields (Entity.removeChild w p e) e hrce) hrc

/-! ## Claim C2: mutual consistency of child lists and parent references -/

/-- C2 fails as stated.  From a fresh heap: addChild 0 1 then destroy 0
leaves entity 1 with parent 0 while entity 0 has an empty child list
(destroy abandons its children); addChild 0 1 then addChild 2 1 leaves
entity 1 in entity 0's child list while its parent reference points at
entity 2 (addChild silently re-parents without removing the child from
the old parent's list). -/
theorem tree_consistency_counterexample_C2 :
    Consistent freshWorld ∧
    ¬ Consistent (runTreeOps freshWorld [.addChild 0 1, .destroy 0]) ∧
    ¬ Consistent (runTreeOps freshWorld [.addChild 0 1, .addChild 2 1]) := by
  refine ⟨⟨fun p c h => absurd h (by simp [freshWorld]),
           fun c p h => by simp [freshWorld] at h⟩, ?_, ?_⟩
  · rintro ⟨-, h2⟩
    have hp : ((runTreeOps freshWorld [.addChild 0 1, .destroy 0]) 1).parent =
        some 0 := by decide
    have := h2 1 0 hp
    have hc : ((runTreeOps freshWorld [.addChild 0 1, .destroy 0]) 0).children =
        [] := by decide
    rw [hc] at this
    simp at this
  · rintro ⟨h1, -⟩
    have hm : (1 : Nat) ∈
        ((runTreeOps freshWorld [.addChild 0 1, .addChild 2 1]) 0).children := by
      decide
    have := h1 0 1 hm
    have hp : ((runTreeOps freshWorld [.addChild 0 1, .addChild 2 1]) 1).parent =
        some 2 := by decide
    rw [hp] at this
    simp at this

/-- C2 amended: after any sequence of addChild / removeChild / destroy in
which every addChild is applied to a child whose parent reference is null
and every destroy to an entity with an empty child list, the tree remains
mutually consistent: each entity in a child list has its parent reference
set to the list's owner, and each entity with a non-null parent occurs
exactly once in that parent's child list. -/
theorem tree_consistency_amended_C2 (ops : List TreeOp) (w : World)
    (hw : Consistent w) (hops : GoodTreeOps w ops) :
    Consistent (runTreeOps w ops) := by
  induction ops generalizing w with
  | nil => exact hw
  | cons op rest ih =>
    obtain ⟨hpre, hrest⟩ := hops
    refine ih (applyTreeOp w op) ?_ hrest
    cases op with
    | addChild p c => exact addChild_consistent hw hpre
    | removeChild p c => exact removeChild_consistent p c hw
    | destroy e => exact destroy_consistent hw hpre

/-- Witness for the amended C2 on a concrete run from the fresh heap:
attach entity 1 under entity 0, detach it again, then destroy the (now
childless) entity 1. -/
theorem tree_consistency_amended_C2_witness :
    Consistent (runTreeOps freshWorld
      [.addChild 0 1, .removeChild 0 1, .destroy 1]) :=
  tree_consistency_amended_C2 [.addChild 0 1, .removeChild 0 1, .destroy 1]
    freshWorld
    ⟨fun p c h => absurd h (by simp [freshWorld]),
     fun c p h => by simp [freshWorld] at h⟩
    (by simp only [GoodTreeOps, TreeOpPre]
        exact ⟨rfl, trivial, by decide, trivial⟩)

/-! ## Claim C8: addChild leaves the scene's flat name index unchanged -/

/-- C8: Entity.addChild mutates only the entity heap; the scene's
allEntities index (and hence every findEntity lookup, in particular the
lookup of the new child's name) is exactly what it was before the call,
so the child is findable only if some already-indexed entity bears that
name. -/
theorem addChild_index_frame_C8 (s : SceneRef) (p c : Nat) :
    (SceneRef.mk (Entity.addChild s.world p c) s.rootEntities
        s.allEntities).allEntities = s.allEntities ∧
    (∀ n, (SceneRef.mk (Entity.addChild s.world p c) s.rootEntities
        s.allEntities).findEntity n = s.findEntity n) ∧
    (SceneRef.mk (Entity.addChild s.world p c) s.rootEntities
        s.allEntities).findEntity ((s.world c).name) =
      s.findEntity ((s.world c).name) :=
  ⟨rfl, fun _ => rfl, rfl⟩

/-! ## Claim C7: an inactive entity updates nothing -/

/-- C7: calling update on an entity whose active flag is false invokes no
component update, neither of the entity itself nor of any descendant,
whatever the descendants' own active flags and enabled flags are: the
trace of invoked component updates is empty. -/
theorem inactive_entity_no_update_C7 (comps : List UComp)
    (children : List UTree) :
    updateEntity (.node false comps children) = [] := by
  simp [updateEntity]

/-! ## Lemmas for the input state machine -/

theorem InputManager.step_pressed {s : InputManager} {k : String}
    {e : InputEvent} (he : e ≠ .keyup k) (h : k ∈ s.keysPressed) :
    k ∈ (s.step e).keysPressed := by
  cases e with
  | keydown k' => exact Finset.mem_insert_of_mem h
  | keyup k' =>
    have hne : k ≠ k' := fun hk => he (by rw [hk])
    exact Finset.mem_erase.2 ⟨hne, h⟩
  | update => exact h

theorem InputManager.run_pressed {k : String} {es : List InputEvent}
    (hes : InputEvent.keyup k ∉ es) {s : InputManager}
    (h : k ∈ s.keysPressed) : k ∈ (s.run es).keysPressed := by
  induction es generalizing s with
  | nil => exact h
  | cons e rest ih =>
    have h1 : e ≠ .keyup k := fun hk => hes (by rw [hk]; exact List.mem_cons_self _ _)
    have h2 : InputEvent.keyup k ∉ rest := fun hk => hes (List.mem_cons_of_mem _ hk)
    exact ih h2 (InputManager.step_pressed h1 h)

theorem InputManager.step_justPressed {s : InputManager} {k : String}
    {e : InputEvent} (he : e ≠ .update) (h : k ∈ s.keysJustPressed) :
    k ∈ (s.step e).keysJustPressed := by
  cases e with
  | keydown k' =>
    simp only [InputManager.step]
    split
    · exact h
    · exact Finset.mem_insert_of_mem h
  | keyup k' => exact h
  | update => exact absurd rfl he

theorem InputManager.run_justPressed {k : String} {es : List InputEvent}
    (hes : InputEvent.update ∉ es) {s : InputManager}
    (h : k ∈ s.keysJustPressed) : k ∈ (s.run es).keysJustPressed := by
  induction es generalizing s with
  | nil => exact h
  | cons e rest ih =>
    have h1 : e ≠ .update := fun hk => hes (by rw [← hk]; exact List.mem_cons_self _ _)
    have h2 : InputEvent.update ∉ rest := fun hk => hes (List.mem_cons_of_mem _ hk)
    exact ih h2 (InputManager.step_justPressed h1 h)

theorem InputManager.step_held_not_justPressed {s : InputManager} {k : String}
    {e : InputEvent} (he : e ≠ .keyup k)
    (h : k ∈ s.keysPressed ∧ k ∉ s.keysJustPressed) :
    k ∈ (s.step e).keysPressed ∧ k ∉ (s.step e).keysJustPressed := by
  obtain ⟨hp, hjp⟩ := h
  refine ⟨InputManager.step_pressed he hp, ?_⟩
  cases e with
  | keydown k' =>
    simp only [InputManager.step]
    split
    · exact hjp
    · rename_i hk'
      intro hmem
      rcases Finset.mem_insert.1 hmem with rfl | hmem
      · exact hk' hp
      · exact hjp hmem
  | keyup k' => exact hjp
  | update => simp [InputManager.step]

theorem InputManager.run_held_not_justPressed {k : String} {es : List InputEvent}
    (hes : InputEvent.keyup k ∉ es) {s : InputManager}
    (h : k ∈ s.keysPressed ∧ k ∉ s.keysJustPressed) :
    k ∈ (s.run es).keysPressed ∧ k ∉ (s.run es).keysJustPressed := by
  induction es generalizing s with
  | nil => exact h
  | cons e rest ih =>
    have h1 : e ≠ .keyup k := fun hk => hes (by rw [hk]; exact List.mem_cons_self _ _)
    have h2 : InputEvent.keyup k ∉ rest := fun hk => hes (List.mem_cons_of_mem _ hk)
    exact ih h2 (InputManager.step_held_not_justPressed h1 h)

/-! ## Claim C5: single-frame just-pressed edge, level-held until release -/

/-- C5: from any state in which key k is not held, a raw press makes
isKeyJustPressed(k) true and it stays true through any further events as
long as no update() runs (and k is not released); after exactly one
update() it is false and remains false through any further events while
the key stays held (key-repeat keydowns included); isKeyPressed(k) is true
from the press through every event that is not a release of k, and a raw
release then makes it false. -/
theorem key_edge_detection_C5 (s : InputManager) (k : String)
    (hp : ¬ s.isKeyPressed k)
    (es₁ : List InputEvent) (h₁u : InputEvent.update ∉ es₁)
    (h₁k : InputEvent.keyup k ∉ es₁)
    (es₂ : List InputEvent) (h₂k : InputEvent.keyup k ∉ es₂) :
    ((s.step (.keydown k)).run es₁).isKeyJustPressed k ∧
    ((s.step (.keydown k)).run es₁).isKeyPressed k ∧
    ¬ (((((s.step (.keydown k)).run es₁).step .update).run es₂).isKeyJustPressed k) ∧
    (((((s.step (.keydown k)).run es₁).step .update).run es₂).isKeyPressed k) ∧
    ¬ ((((((s.step (.keydown k)).run es₁).step .update).run es₂).step
        (.keyup k)).isKeyPressed k) := by
  have hp' : k ∉ s.keysPressed := hp
  have hjp1 : k ∈ (s.step (.keydown k)).keysJustPressed := by
    simp only [InputManager.step, if_neg hp']
    exact Finset.mem_insert_self k _
  have hpr1 : k ∈ (s.step (.keydown k)).keysPressed := Finset.mem_insert_self k _
  have c1 : k ∈ ((s.step (.keydown k)).run es₁).keysJustPressed :=
    InputManager.run_justPressed h₁u hjp1
  have c2 : k ∈ ((s.step (.keydown k)).run es₁).keysPressed :=
    InputManager.run_pressed h₁k hpr1
  have hstep2 :
      k ∈ ((((s.step (.keydown k)).run es₁).step .update)).keysPressed ∧
      k ∉ ((((s.step (.keydown k)).run es₁).step .update)).keysJustPressed := by
    constructor
    · exact c2
    · simp [InputManager.step]
  have c34 := InputManager.run_held_not_justPressed h₂k hstep2
  refine ⟨c1, c2, c34.2, c34.1, ?_⟩
  simp only [InputManager.isKeyPressed, InputManager.step]
  exact Finset.not_mem_erase k _

/-! ## Lemmas about the JS Map association lists -/

theorem mapKeys_nil {κ : Type} : mapKeys ([] : List (κ × Nat)) = [] := rfl

theorem mapKeys_cons {κ : Type} (k : κ) (v : Nat) (l : List (κ × Nat)) :
    mapKeys ((k, v) :: l) = k :: mapKeys l := rfl

theorem mapKeys_append {κ : Type} (l₁ l₂ : List (κ × Nat)) :
    mapKeys (l₁ ++ l₂) = mapKeys l₁ ++ mapKeys l₂ :=
  List.map_append _ _ _

theorem mapGet_eq_none {κ : Type} [DecidableEq κ] (l : List (κ × Nat)) (n : κ) :
    mapGet l n = none ↔ n ∉ mapKeys l := by
  induction l with
  | nil => simp [mapGet, mapKeys_nil]
  | cons hd tl ih =>
    obtain ⟨k, v⟩ := hd
    rw [mapKeys_cons]
    by_cases hk : k = n
    · subst hk
      simp [mapGet]
    · have hnk : ¬ n = k := fun h => hk h.symm
      simp [mapGet, hk, hnk, ih]

theorem mapGet_append {κ : Type} [DecidableEq κ] (l₁ l₂ : List (κ × Nat)) (n : κ) :
    mapGet (l₁ ++ l₂) n =
      if n ∈ mapKeys l₁ then mapGet l₁ n else mapGet l₂ n := by
  induction l₁ with
  | nil => simp [mapGet, mapKeys_nil]
  | cons hd tl ih =>
    obtain ⟨k, v⟩ := hd
    rw [mapKeys_cons]
    by_cases hk : k = n
    · subst hk
      simp [mapGet]
    · have hnk : ¬ n = k := fun h => hk h.symm
      simp [mapGet, hk, hnk, ih]

theorem mapSet_cons_same {κ : Type} [DecidableEq κ] (k : κ) (v' v : Nat)
    (tl : List (κ × Nat)) : mapSet ((k, v') :: tl) k v = (k, v) :: tl := by
  simp [mapSet]

theorem mapSet_cons_ne {κ : Type} [DecidableEq κ] {k' k : κ} (hk : k' ≠ k)
    (v' v : Nat) (tl : List (κ × Nat)) :
    mapSet ((k', v') :: tl) k v = (k', v') :: mapSet tl k v := by
  simp [mapSet, hk]

theorem mapDel_cons_same {κ : Type} [DecidableEq κ] (k : κ) (v' : Nat)
    (tl : List (κ × Nat)) : mapDel ((k, v') :: tl) k = tl := by
  simp [mapDel]

theorem mapDel_cons_ne {κ : Type} [DecidableEq κ] {k' k : κ} (hk : k' ≠ k)
    (v' : Nat) (tl : List (κ × Nat)) :
    mapDel ((k', v') :: tl) k = (k', v') :: mapDel tl k := by
  simp [mapDel, hk]

theorem mem_mapKeys_mapSet {κ : Type} [DecidableEq κ] (l : List (κ × Nat))
    (k : κ) (v : Nat) (x : κ) :
    x ∈ mapKeys (mapSet l k v) ↔ x = k ∨ x ∈ mapKeys l := by
  induction l with
  | nil => simp [mapSet, mapKeys]
  | cons hd tl ih =>
    obtain ⟨k', v'⟩ := hd
    by_cases hk : k' = k
    · subst hk
      rw [mapSet_cons_same, mapKeys_cons, mapKeys_cons]
      simp only [List.mem_cons]
      tauto
    · rw [mapSet_cons_ne hk, mapKeys_cons, mapKeys_cons]
      simp only [List.mem_cons, ih]
      tauto

theorem mapKeys_mapSet_nodup {κ : Type} [DecidableEq κ] {l : List (κ × Nat)}
    (h : (mapKeys l).Nodup) (k : κ) (v : Nat) :
    (mapKeys (mapSet l k v)).Nodup := by
  induction l with
  | nil => simp [mapSet, mapKeys]
  | cons hd tl ih =>
    obtain ⟨k', v'⟩ := hd
    rw [mapKeys_cons, List.nodup_cons] at h
    by_cases hk : k' = k
    · subst hk
      rw [mapSet_cons_same, mapKeys_cons, List.nodup_cons]
      exact h
    · rw [mapSet_cons_ne hk, mapKeys_cons, List.nodup_cons]
      refine ⟨?_, ih h.2⟩
      rw [mem_mapKeys_mapSet]
      rintro (hh | hh)
      · exact hk hh
      · exact h.1 hh

theorem mapKeys_mapDel_sublist {κ : Type} [DecidableEq κ] (l : List (κ × Nat))
    (k : κ) : List.Sublist (mapKeys (mapDel l k)) (mapKeys l) := by
  induction l with
  | nil => simp [mapDel, mapKeys_nil]
  | cons hd tl ih =>
    obtain ⟨k', v'⟩ := hd
    by_cases hk : k' = k
    · subst hk
      rw [mapDel_cons_same, mapKeys_cons]
      exact List.sublist_cons_self _ _
    · rw [mapDel_cons_ne hk, mapKeys_cons, mapKeys_cons]
      exact ih.cons₂ _

theorem mapKeys_mapDel_nodup {κ : Type} [DecidableEq κ] {l : List (κ × Nat)}
    (h : (mapKeys l).Nodup) (k : κ) : (mapKeys (mapDel l k)).Nodup :=
  List.Nodup.sublist (mapKeys_mapDel_sublist l k) h

theorem mapGet_mapDel {κ : Type} [DecidableEq κ] {l : List (κ × Nat)}
    (h : (mapKeys l).Nodup) (k n : κ) :
    mapGet (mapDel l k) n = if k = n then none else mapGet l n := by
  induction l with
  | nil => simp [mapDel, mapGet]
  | cons hd tl ih =>
    obtain ⟨k', v'⟩ := hd
    rw [mapKeys_cons, List.nodup_cons] at h
    by_cases hk : k' = k
    · subst hk
      rw [mapDel_cons_same]
      by_cases hn : k' = n
      · subst hn
        rw [if_pos rfl]
        exact (mapGet_eq_none tl k').2 h.1
      · have hnn : ¬ n = k' := fun hh => hn hh.symm
        simp [mapGet, hn, hnn]
    · rw [mapDel_cons_ne hk]
      by_cases hn : k' = n
      · subst hn
        have hkn : ¬ k = k' := fun hh => hk hh.symm
        simp [mapGet, hkn]
      · simp [mapGet, hn, ih h.2]

/-! ## Lemmas about scene registration -/

mutual

theorem registerEntity_nodup (e : SE) (idx : List (String × Nat))
    (h : (mapKeys idx).Nodup) : (mapKeys (registerEntity e idx)).Nodup := by
  match e with
  | .node i n cs =>
    simp only [registerEntity]
    exact registerChildren_nodup cs _ (mapKeys_mapSet_nodup h n i)

theorem registerChildren_nodup (es : List SE) (idx : List (String × Nat))
    (h : (mapKeys idx).Nodup) : (mapKeys (registerChildren es idx)).Nodup := by
  match es with
  | [] =>
    simp only [registerChildren]
    exact h
  | c :: rest =>
    simp only [registerChildren]
    exact registerChildren_nodup rest _ (registerEntity_nodup c idx h)

end

mutual

theorem unregisterEntity_nodup (e : SE) (idx : List (String × Nat))
    (h : (mapKeys idx).Nodup) : (mapKeys (unregisterEntity e idx)).Nodup := by
  match e with
  | .node i n cs =>
    simp only [unregisterEntity]
    exact unregisterChildren_nodup cs _ (mapKeys_mapDel_nodup h n)

theorem unregisterChildren_nodup (es : List SE) (idx : List (String × Nat))
    (h : (mapKeys idx).Nodup) : (mapKeys (unregisterChildren es idx)).Nodup := by
  match es with
  | [] =>
    simp only [unregisterChildren]
    exact h
  | c :: rest =>
    simp only [unregisterChildren]
    exact unregisterChildren_nodup rest _ (unregisterEntity_nodup c idx h)

end

mutual

theorem mapGet_registerEntity (e : SE) (idx : List (String × Nat)) (n : String)
    (h : (mapKeys (collectEntity e)).Nodup) :
    mapGet (registerEntity e idx) n =
      if n ∈ mapKeys (collectEntity e) then mapGet (collectEntity e) n
      else mapGet idx n := by
  match e with
  | .node i nm cs =>
    simp only [collectEntity, mapKeys_cons, List.nodup_cons] at h
    obtain ⟨hnm, hcs⟩ := h
    simp only [registerEntity, collectEntity, mapKeys_cons]
    rw [mapGet_registerChildren cs _ n hcs]
    by_cases hmem : n ∈ mapKeys (collectChildren cs)
    · have hne : ¬ nm = n := fun hh => hnm (hh ▸ hmem)
      simp [hmem, mapGet, hne]
    · by_cases hn : nm = n
      · subst hn
        simp [hmem, mapGet, mapGet_mapSet]
      · have hnn : ¬ n = nm := fun hh => hn hh.symm
        simp [hmem, mapGet, hn, hnn, mapGet_mapSet]

theorem mapGet_registerChildren (es : List SE) (idx : List (String × Nat))
    (n : String) (h : (mapKeys (collectChildren es)).Nodup) :
    mapGet (registerChildren es idx) n =
      if n ∈ mapKeys (collectChildren es) then mapGet (collectChildren es) n
      else mapGet idx n := by
  match es with
  | [] => simp [registerChildren, collectChildren, mapKeys_nil]
  | c :: rest =>
    simp only [collectChildren, mapKeys_append, List.nodup_append] at h
    obtain ⟨hc, hrest, hdisj⟩ := h
    simp only [registerChildren, collectChildren, mapKeys_append]
    rw [mapGet_registerChildren rest _ n hrest,
      mapGet_registerEntity c idx n hc, mapGet_append]
    by_cases hmem : n ∈ mapKeys (collectChildren rest)
    · have hnc : n ∉ mapKeys (collectEntity c) := fun hh => hdisj hh hmem
      simp [hmem, hnc]
    · by_cases hmc : n ∈ mapKeys (collectEntity c)
      · simp [hmem, hmc]
      · simp [hmem, hmc]

end

mutual

theorem mapGet_unregisterEntity (e : SE) (idx : List (String × Nat)) (n : String)
    (h : (mapKeys idx).Nodup) :
    mapGet (unregisterEntity e idx) n =
      if n ∈ mapKeys (collectEntity e) then none else mapGet idx n := by
  match e with
  | .node i nm cs =>
    simp only [unregisterEntity, collectEntity, mapKeys_cons]
    rw [mapGet_unregisterChildren cs _ n (mapKeys_mapDel_nodup h nm),
      mapGet_mapDel h]
    by_cases hmem : n ∈ mapKeys (collectChildren cs)
    · simp [hmem]
    · by_cases hn : nm = n
      · subst hn
        simp [hmem]
      · have hnn : ¬ n = nm := fun hh => hn hh.symm
        simp [hmem, hn, hnn]

theorem mapGet_unregisterChildren (es : List SE) (idx : List (String × Nat))
    (n : String) (h : (mapKeys idx).Nodup) :
    mapGet (unregisterChildren es idx) n =
      if n ∈ mapKeys (collectChildren es) then none else mapGet idx n := by
  match es with
  | [] => simp [unregisterChildren, collectChildren, mapKeys_nil]
  | c :: rest =>
    simp only [unregisterChildren, collectChildren, mapKeys_append]
    rw [mapGet_unregisterChildren rest _ n (unregisterEntity_nodup c idx h),
      mapGet_unregisterEntity c idx n h]
    by_cases hmem : n ∈ mapKeys (collectChildren rest)
    · simp [hmem]
    · by_cases hmc : n ∈ mapKeys (collectEntity c)
      · simp [hmem, hmc]
      · simp [hmem, hmc]

end

theorem collectChildren_append (l₁ l₂ : List SE) :
    collectChildren (l₁ ++ l₂) = collectChildren l₁ ++ collectChildren l₂ := by
  induction l₁ with
  | nil => simp [collectChildren]
  | cons c rest ih =>
    simp only [List.cons_append, collectChildren, List.append_eq, ih,
      List.append_assoc]

theorem extractRoot_eq {roots : List SE} {i : Nat} {r : SE} {rest : List SE}
    (h : extractRoot roots i = some (r, rest)) :
    ∃ pre post, roots = pre ++ r :: post ∧ rest = pre ++ post := by
  induction roots generalizing r rest with
  | nil => simp [extractRoot] at h
  | cons hd tl ih =>
    simp only [extractRoot] at h
    by_cases hid : hd.eid = i
    · rw [if_pos hid] at h
      have h2 := Option.some.inj h
      have hr : hd = r := congrArg Prod.fst h2
      have hrest : tl = rest := congrArg Prod.snd h2
      exact ⟨[], rest, by simp [← hr, ← hrest], by simp⟩
    · rw [if_neg hid] at h
      cases hrec : extractRoot tl i with
      | none =>
        rw [hrec] at h
        exact Option.noConfusion h
      | some pr =>
        obtain ⟨r2, rest2⟩ := pr
        rw [hrec] at h
        have h2 := Option.some.inj h
        have hr : r2 = r := congrArg Prod.fst h2
        have hrest : hd :: rest2 = rest := congrArg Prod.snd h2
        subst hr
        obtain ⟨pre, post, hpre, hpost⟩ := ih hrec
        refine ⟨hd :: pre, post, ?_, ?_⟩
        · rw [hpre]
          rfl
        · rw [← hrest, hpost]
          rfl

/-! ## Preservation of the scene invariant -/

theorem addEntity_inv {s : Scene} (e : SE) (nm : Option String)
    (hinv : SceneInv s)
    (hn : (mapKeys (collectEntity (e.withName (chooseName nm e.ename)))).Nodup)
    (hfresh : ∀ n ∈ mapKeys (collectEntity (e.withName (chooseName nm e.ename))),
      n ∉ mapKeys (collectChildren s.rootEntities)) :
    SceneInv (s.addEntity e nm) := by
  obtain ⟨hidx, hreach, hlook⟩ := hinv
  have hlook2 : ∀ n, mapGet s.allEntities n =
      mapGet (collectChildren s.rootEntities) n := hlook
  set e2 := e.withName (chooseName nm e.ename) with he2
  have hforest :
      collectChildren (s.rootEntities ++ [e2]) =
        collectChildren s.rootEntities ++ collectEntity e2 := by
    rw [collectChildren_append]
    simp [collectChildren]
  refine ⟨registerEntity_nodup e2 _ hidx, ?_, ?_⟩
  · show (mapKeys (collectChildren (s.rootEntities ++ [e2]))).Nodup
    rw [hforest, mapKeys_append, List.nodup_append]
    exact ⟨hreach, hn, fun x hx hx2 => hfresh x hx2 hx⟩
  · intro n
    show mapGet (registerEntity e2 s.allEntities) n =
      mapGet (collectChildren (s.rootEntities ++ [e2])) n
    rw [hforest, mapGet_registerEntity e2 _ n hn, mapGet_append]
    by_cases hmem : n ∈ mapKeys (collectEntity e2)
    · have hnr : n ∉ mapKeys (collectChildren s.rootEntities) := hfresh n hmem
      simp [hmem, hnr]
    · by_cases hnr : n ∈ mapKeys (collectChildren s.rootEntities)
      · simp [hmem, hnr, hlook2 n]
      · rw [if_neg hmem, if_neg hnr, hlook2 n]
        rw [(mapGet_eq_none _ n).2 hnr, (mapGet_eq_none _ n).2 hmem]

theorem removeEntity_inv {s : Scene} (i : Nat) (hinv : SceneInv s) :
    SceneInv (s.removeEntity i) := by
  obtain ⟨hidx, hreach, hlook⟩ := hinv
  have hlook2 : ∀ n, mapGet s.allEntities n =
      mapGet (collectChildren s.rootEntities) n := hlook
  show SceneInv (Scene.removeEntity s i)
  rw [Scene.removeEntity]
  cases hext : extractRoot s.rootEntities i with
  | none => exact ⟨hidx, hreach, hlook⟩
  | some pr =>
    obtain ⟨r, rest⟩ := pr
    obtain ⟨pre, post, hpre, hpost⟩ := extractRoot_eq hext
    subst hpost
    have hsplit : collectChildren s.rootEntities =
        collectChildren pre ++ (collectEntity r ++ collectChildren post) := by
      rw [hpre, collectChildren_append]
      simp [collectChildren]
    have hsplit2 : collectChildren (pre ++ post) =
        collectChildren pre ++ collectChildren post :=
      collectChildren_append pre post
    have hreach2 : (mapKeys (collectChildren (pre ++ post))).Nodup := by
      rw [hsplit, mapKeys_append, mapKeys_append] at hreach
      rw [hsplit2, mapKeys_append]
      exact List.Nodup.sublist
        (List.Sublist.append_left (List.sublist_append_right _ _) _) hreach
    have hdisj :
        ∀ n ∈ mapKeys (collectEntity r), n ∉ mapKeys (collectChildren (pre ++ post)) := by
      intro n hn hmem
      rw [hsplit, mapKeys_append, mapKeys_append] at hreach
      rw [hsplit2, mapKeys_append] at hmem
      rcases List.mem_append.1 hmem with hm | hm
      · exact (List.disjoint_of_nodup_append hreach) hm
          (List.mem_append.2 (Or.inl hn))
      · have h2 := List.nodup_append.1 hreach
        exact (List.disjoint_of_nodup_append h2.2.1) hn hm
    refine ⟨unregisterEntity_nodup r _ hidx, hreach2, ?_⟩
    intro n
    show mapGet (unregisterEntity r s.allEntities) n =
      mapGet (collectChildren (pre ++ post)) n
    rw [mapGet_unregisterEntity r _ n hidx, hsplit2, mapGet_append]
    by_cases hmem : n ∈ mapKeys (collectEntity r)
    · have h1 : n ∉ mapKeys (collectChildren (pre ++ post)) := hdisj n hmem
      rw [hsplit2, mapKeys_append] at h1
      have h2 : n ∉ mapKeys (collectChildren pre) := fun hh =>
        h1 (List.mem_append.2 (Or.inl hh))
      have h3 : n ∉ mapKeys (collectChildren post) := fun hh =>
        h1 (List.mem_append.2 (Or.inr hh))
      rw [if_pos hmem, if_neg h2, (mapGet_eq_none _ n).2 h3]
    · rw [if_neg hmem, hlook2 n, hsplit, mapGet_append, mapGet_append]
      by_cases hp : n ∈ mapKeys (collectChildren pre)
      · simp [hp]
      · simp [hp, hmem]

/-! ## Claim C1: findEntity after addEntity/removeEntity sequences -/

/-- C1 fails as stated.  Register entity 0 under name "a", then entity 1
under the same name (last write wins in the index), then remove entity 1:
removeEntity deletes the single index entry stored under the removed
entity's name, so entity 0 — still registered, with current name "a" —
is no longer returned: findEntity("a") is null although a currently
registered entity holds that name. -/
theorem scene_lookup_counterexample_C1 :
    ("a", 0) ∈ collectChildren (runSceneOps (Scene.mk [] [])
      [.add (.node 0 "a" []) none, .add (.node 1 "a" []) none,
        .remove 1]).rootEntities ∧
    (runSceneOps (Scene.mk [] [])
      [.add (.node 0 "a" []) none, .add (.node 1 "a" []) none,
        .remove 1]).findEntity "a" = none := by
  constructor
  · decide
  · decide

/-- C1 amended: provided every addEntity call registers a tree whose
names are pairwise distinct and held by no currently registered entity,
findEntity(name) returns the unique currently registered entity whose
current name is that name, and null when no currently registered entity
holds it (stated as the invariant SceneInv of the resulting scene, whose
last component says exactly that findEntity agrees with lookup over the
registered (name, id) pairs). -/
theorem scene_lookup_amended_C1 (ops : List SceneOp) (s : Scene)
    (hs : SceneInv s) (hops : GoodSceneOps s ops) :
    SceneInv (runSceneOps s ops) := by
  induction ops generalizing s with
  | nil => exact hs
  | cons op rest ih =>
    cases op with
    | add e nm =>
      obtain ⟨⟨hn, hfresh⟩, hrest⟩ := hops
      exact ih (s.addEntity e nm) (addEntity_inv e nm hs hn hfresh) hrest
    | remove i =>
      exact ih (s.removeEntity i) (removeEntity_inv i hs) hops

/-- Witness for the amended C1 on a concrete run: register a root named
"a" with a child named "b", remove it again, then register entity 2 under
the explicit name "c". -/
theorem scene_lookup_amended_C1_witness :
    SceneInv (runSceneOps (Scene.mk [] [])
      [.add (.node 0 "a" [.node 1 "b" []]) none, .remove 0,
        .add (.node 2 "a" []) (some "c")]) :=
  scene_lookup_amended_C1
    [.add (.node 0 "a" [.node 1 "b" []]) none, .remove 0,
      .add (.node 2 "a" []) (some "c")]
    (Scene.mk [] [])
    ⟨List.nodup_nil, List.nodup_nil, fun _ => rfl⟩
    (by simp only [GoodSceneOps]
        exact ⟨⟨by decide, by decide⟩, ⟨by decide, by decide⟩, trivial⟩)

/-- Witness for C5 at a concrete run: start from the empty state, press
"a", interleave a press of "b" before the frame's update(), then run an
update() and a repeat keydown of "a". -/
theorem key_edge_detection_C5_witness :
    (((InputManager.mk ∅ ∅ ∅).step (.keydown "a")).run
        [.keydown "b"]).isKeyJustPressed "a" ∧
    (((InputManager.mk ∅ ∅ ∅).step (.keydown "a")).run
        [.keydown "b"]).isKeyPressed "a" ∧
    ¬ (((((InputManager.mk ∅ ∅ ∅).step (.keydown "a")).run
        [.keydown "b"]).step .update).run
        [.update, .keydown "a"]).isKeyJustPressed "a" ∧
    (((((InputManager.mk ∅ ∅ ∅).step (.keydown "a")).run
        [.keydown "b"]).step .update).run
        [.update, .keydown "a"]).isKeyPressed "a" ∧
    ¬ ((((((InputManager.mk ∅ ∅ ∅).step (.keydown "a")).run
        [.keydown "b"]).step .update).run
        [.update, .keydown "a"]).step (.keyup "a")).isKeyPressed "a" :=
  key_edge_detection_C5 (InputManager.mk ∅ ∅ ∅) "a" (by decide)
    [.keydown "b"] (by decide) (by decide)
    [.update, .keydown "a"] (by decide)

end Codxen
